import Mathlib

/-!
# Verification of the weighted-load-balancer forwarding strategy

Shallow embedding of `src/weighted-load-balancer/weighted-load-balancer-strategy.cpp`
(NFD weighted-load-balancer strategy) and proofs about it.

Modelling conventions:
* Face ids are `ℕ` values below `2 ^ 64` (C++ `FaceId` is `uint64_t`);
  `INVALID_FACEID` is `uint64` max, the reserved sentinel.
* `ndn::time::milliseconds` counts are modelled as `ℤ` (the C++ rep is a signed
  64-bit integer); `milliseconds::max()` is `MAX_DELAY = 2 ^ 63 - 1`.
* The `double` weight is modelled in exact arithmetic as `ℚ`:
  `calculateWeight` computes `(1.0 * (milliseconds::max() - lastDelay)) / milliseconds::max()`,
  embedded as the exact rational `(MAX_DELAY - lastDelay) / MAX_DELAY`.
* The `boost::multi_index_container` of `WeightedFace` (unique ordered index by
  `(lastDelay, id)` and unique hashed index by id) is modelled as a
  `List WeightedFace` in iteration order.  Insertion is a no-op exactly when a
  face with the same id is already present (a collision on either unique index
  forces equal face ids).
* The PIT scope check `pitEntry->violatesScope(upstream)` is an oracle
  `violatesScope : ℕ → Bool` keyed by face id (faces are identified by id).
* The random sample `dist(m_randomGenerator)` is an arbitrary input
  `selection : ℕ` (the `uint64_t` conversion of the drawn double).
* Fallible / undefined behaviour (out-of-bounds reads, incrementing an
  iterator that is already past-the-end) is made explicit with
  `Except Unit`: `.error ()` marks a path on which the C++ has undefined
  behaviour; `.ok none` is a clean `nullptr` return.
-/

/-- `INVALID_FACEID`: `std::numeric_limits<uint64_t>::max()`, the sentinel face id. -/
def INVALID_FACEID : ℕ := 2 ^ 64 - 1

/-- `ndn::time::milliseconds::max()` (signed 64-bit millisecond count). -/
def MAX_DELAY : ℤ := 2 ^ 63 - 1

/-- `WeightedFace::calculateWeight`, line 92:
`weight = (1.0 * (milliseconds::max() - lastDelay)) / milliseconds::max();`
in exact arithmetic. -/
def weightOf (d : ℤ) : ℚ := ((MAX_DELAY : ℚ) - (d : ℚ)) / (MAX_DELAY : ℚ)

/-- `class WeightedFace` (lines 54–98): a face reference (kept as its id),
the last observed delay, and the derived weight. -/
structure WeightedFace where
  faceId : ℕ
  lastDelay : ℤ
  weight : ℚ
deriving DecidableEq, Repr

/-- The `WeightedFace` constructor (lines 58–64): stores the delay and calls
`calculateWeight()`.  Call sites use the default `delay = milliseconds(0)`. -/
def mkWeightedFace (fid : ℕ) (delay : ℤ) : WeightedFace :=
  { faceId := fid, lastDelay := delay, weight := weightOf delay }

/-- `WeightedFace::modifyWeightedFaceDelay` (lines 81–87): assigns
`lastDelay = delay` (no clamping) and recomputes the weight. -/
def modifyWeightedFaceDelay (w : WeightedFace) (delay : ℤ) : WeightedFace :=
  { faceId := w.faceId, lastDelay := delay, weight := weightOf delay }

/-- The spec-level WeightedFace invariant (spec §3, §8 invariant 1):
`weight == (MAX − lastDelay) / MAX` with `0 ≤ lastDelay ≤ MAX`. -/
def WFInv (w : WeightedFace) : Prop :=
  w.weight = weightOf w.lastDelay ∧ 0 ≤ w.lastDelay ∧ w.lastDelay ≤ MAX_DELAY

/-- `isEligibleFace` (lines 286–293):
`downstream.getId() != upstream.getId() && !pitEntry->violatesScope(upstream)`. -/
def isEligibleFace (inId : ℕ) (violatesScope : ℕ → Bool) (upId : ℕ) : Bool :=
  (inId != upId) && !(violatesScope upId)

/-- Insertion into the `WeightedFaceSet` multi-index container: a no-op when a
face with the same id is already present (unique-index collision), otherwise
the new element is added (at the end of the modelled iteration order). -/
def wfsInsert (s : List WeightedFace) (w : WeightedFace) : List WeightedFace :=
  if s.any (fun x => x.faceId == w.faceId) then s else s ++ [w]

/-- The hashed-index lookup predicate `facesById.find(fid)`. -/
def faceIdIs (fid : ℕ) (w : WeightedFace) : Bool := w.faceId == fid

/-- `MyMeasurementInfo::updateFaceDelay` (lines 438–459): look the face up by
id; if present, `modify` it through the container with
`modifyWeightedFaceDelay`; if absent, do nothing.  (`modify` cannot evict the
element: a collision would need a second entry with the same face id.) -/
def updateFaceDelay : List WeightedFace → ℕ → ℤ → List WeightedFace
  | [], _, _ => []
  | w :: ws, fid, delay =>
    if w.faceId == fid then modifyWeightedFaceDelay w delay :: ws
    else w :: updateFaceDelay ws fid delay

/-- The element inserted by one iteration of the `updateStoredNextHops` loop
(lines 473–481): the old table's entry for this next hop when present
(`insert(*weightedIt)`), else a fresh `WeightedFace(face)` with delay 0. -/
def usnPick (s : List WeightedFace) (fid : ℕ) : WeightedFace :=
  match s.find? (faceIdIs fid) with
  | none => mkWeightedFace fid 0
  | some w => w

/-- One iteration of the `updateStoredNextHops` loop: insert `usnPick` into
the set under construction. -/
def usnStep (s acc : List WeightedFace) (fid : ℕ) : List WeightedFace :=
  wfsInsert acc (usnPick s fid)

/-- `MyMeasurementInfo::updateStoredNextHops` (lines 461–485): build a fresh
set; for each next hop, copy the existing `WeightedFace` verbatim when the old
table has one for that id, otherwise insert `WeightedFace(face)` (delay 0);
finally replace the stored table with the fresh set. -/
def updateStoredNextHops (s : List WeightedFace) (nexthops : List ℕ) : List WeightedFace :=
  nexthops.foldl (usnStep s) []

/-- A measurements-table entry as `demoteFace` sees it: an optional attached
`MyMeasurementInfo` (its weighted-face table) plus a log of the lifetime
extensions (in seconds) applied to the host entry. -/
structure MeasurementEntry where
  info : Option (List WeightedFace)
  lifetimeExtensions : List ℕ
deriving Repr

/-- The inner loop of `demoteFace` (lines 423–427): for every out-record face
of the PIT entry, `updateFaceDelay(face, milliseconds::max())`. -/
def demoteUpdates (outRecords : List ℕ) (t : List WeightedFace) : List WeightedFace :=
  outRecords.foldl (fun acc fid => updateFaceDelay acc fid MAX_DELAY) t

/-- `WeightedLoadBalancerStrategy::demoteFace` (lines 409–432): walk the
measurement ancestors of the PIT entry; on each entry that carries a
`MyMeasurementInfo`, extend the lifetime by 16 seconds and apply
`updateFaceDelay(·, milliseconds::max())` for every out-record face. -/
def demoteFace (outRecords : List ℕ) (ancestors : List MeasurementEntry) :
    List MeasurementEntry :=
  ancestors.map (fun e =>
    match e.info with
    | none => e
    | some t =>
      { info := some (demoteUpdates outRecords t),
        lifetimeExtensions := e.lifetimeExtensions ++ [16] })

/-- `uint64_t` subtraction of 1, as in the loop bound
`i < facesById.size() - 1` (line 329): for `n = 0` the subtraction wraps
around to `2 ^ 64 - 1`. -/
def usub1 (n : ℕ) : ℕ := if n = 0 then 2 ^ 64 - 1 else n - 1

/-- The first loop of `selectOutgoingFace` (lines 326–345).  `ids` is the
`faceIds` vector (face ids in iteration order followed by `INVALID_FACEID`),
`i` is both the loop counter and the position of `faceEntry`, `fmi` is
`firstMatchIndex`, and `fuel` is the number of remaining iterations
(`bound - i`).  `.ok (.inl k)` is the early `return` of the face at position
`k`; `.ok (.inr fmi)` is normal loop exit; `.error ()` marks undefined
behaviour: an out-of-bounds read of `faceIds`, dereferencing `faceEntry` out
of range, or `++faceEntry` when `faceEntry` is already `end()`. -/
def selLoop1 (faces : List WeightedFace) (ids : List ℕ) (elig : WeightedFace → Bool)
    (selection : ℕ) : ℕ → ℕ → ℕ → Except Unit (ℕ ⊕ ℕ)
  | 0, _, fmi => .ok (.inr fmi)
  | fuel + 1, i, fmi =>
    match ids[i]? with
    | none => .error ()
    | some a =>
      if a ≤ selection then
        match ids[i + 1]? with
        | none => .error ()
        | some b =>
          if selection < b then
            match faces[i]? with
            | none => .error ()
            | some w =>
              if elig w then .ok (.inl i)
              else
                if i = faces.length then .error ()
                else selLoop1 faces ids elig selection fuel (i + 1)
                  (if i < fmi then i else fmi)
          else
            if i = faces.length then .error ()
            else selLoop1 faces ids elig selection fuel (i + 1) fmi
      else
        if i = faces.length then .error ()
        else selLoop1 faces ids elig selection fuel (i + 1) fmi

/-- The wrap-around loop of `selectOutgoingFace` (lines 356–366): from
position `i` with `fuel = limit - i` iterations left, return the first
eligible face.  `.error ()` marks an out-of-range dereference (unreachable,
since `limit ≤ size`). -/
def selLoop2 (faces : List WeightedFace) (elig : WeightedFace → Bool) :
    ℕ → ℕ → Except Unit (Option ℕ)
  | 0, _ => .ok none
  | fuel + 1, i =>
    match faces[i]? with
    | none => .error ()
    | some w => if elig w then .ok (some i) else selLoop2 faces elig fuel (i + 1)

/-- `WeightedLoadBalancerStrategy::selectOutgoingFace` (lines 295–371),
returning the position (in iteration order) of the chosen face.  After the
first loop exits normally, `faceEntry` sits at position `size() - 1`
(`uint64` arithmetic: `usub1 size`); the post-loop check (lines 347–352)
tests that single face; the wrap-around loop (lines 356–366) scans positions
`0 ≤ i < min(firstMatchIndex, size())`. -/
def selectOutgoingFace (inId : ℕ) (violatesScope : ℕ → Bool)
    (faces : List WeightedFace) (selection : ℕ) : Except Unit (Option ℕ) :=
  match selLoop1 faces (faces.map (fun w => w.faceId) ++ [INVALID_FACEID])
      (fun w => isEligibleFace inId violatesScope w.faceId) selection
      (usub1 faces.length) 0 INVALID_FACEID with
  | .error e => .error e
  | .ok (.inl k) => .ok (some k)
  | .ok (.inr fmi) =>
    if usub1 faces.length = faces.length then
      selLoop2 faces (fun w => isEligibleFace inId violatesScope w.faceId)
        (min fmi faces.length) 0
    else
      match faces[usub1 faces.length]? with
      | none => .error ()
      | some w =>
        if isEligibleFace inId violatesScope w.faceId then
          .ok (some (usub1 faces.length))
        else
          selLoop2 faces (fun w => isEligibleFace inId violatesScope w.faceId)
            (min fmi faces.length) 0

/-- State-threading embedding of the first selector loop: identical control
flow to `selLoop1`, but the measurement table (the strategy state read by the
loop) is threaded through every step and returned at every exit. -/
def selLoop1S (ids : List ℕ) (elig : WeightedFace → Bool) (selection : ℕ) :
    ℕ → ℕ → ℕ → List WeightedFace → Except Unit (ℕ ⊕ ℕ) × List WeightedFace
  | 0, _, fmi, tbl => (.ok (.inr fmi), tbl)
  | fuel + 1, i, fmi, tbl =>
    match ids[i]? with
    | none => (.error (), tbl)
    | some a =>
      if a ≤ selection then
        match ids[i + 1]? with
        | none => (.error (), tbl)
        | some b =>
          if selection < b then
            match tbl[i]? with
            | none => (.error (), tbl)
            | some w =>
              if elig w then (.ok (.inl i), tbl)
              else
                if i = tbl.length then (.error (), tbl)
                else selLoop1S ids elig selection fuel (i + 1)
                  (if i < fmi then i else fmi) tbl
          else
            if i = tbl.length then (.error (), tbl)
            else selLoop1S ids elig selection fuel (i + 1) fmi tbl
      else
        if i = tbl.length then (.error (), tbl)
        else selLoop1S ids elig selection fuel (i + 1) fmi tbl

/-- State-threading embedding of the wrap-around selector loop. -/
def selLoop2S (elig : WeightedFace → Bool) :
    ℕ → ℕ → List WeightedFace → Except Unit (Option ℕ) × List WeightedFace
  | 0, _, tbl => (.ok none, tbl)
  | fuel + 1, i, tbl =>
    match tbl[i]? with
    | none => (.error (), tbl)
    | some w =>
      if elig w then (.ok (some i), tbl)
      else selLoop2S elig fuel (i + 1) tbl

/-- State-threading embedding of `selectOutgoingFace`: the weighted-face
table is the state; every read goes through it and it is returned alongside
the result. -/
def selectOutgoingFaceS (inId : ℕ) (violatesScope : ℕ → Bool)
    (tbl : List WeightedFace) (selection : ℕ) :
    Except Unit (Option ℕ) × List WeightedFace :=
  match selLoop1S (tbl.map (fun w => w.faceId) ++ [INVALID_FACEID])
      (fun w => isEligibleFace inId violatesScope w.faceId) selection
      (usub1 tbl.length) 0 INVALID_FACEID tbl with
  | (.error e, tbl2) => (.error e, tbl2)
  | (.ok (.inl k), tbl2) => (.ok (some k), tbl2)
  | (.ok (.inr fmi), tbl2) =>
    if usub1 tbl2.length = tbl2.length then
      selLoop2S (fun w => isEligibleFace inId violatesScope w.faceId)
        (min fmi tbl2.length) 0 tbl2
    else
      match tbl2[usub1 tbl2.length]? with
      | none => (.error (), tbl2)
      | some w =>
        if isEligibleFace inId violatesScope w.faceId then
          (.ok (some (usub1 tbl2.length)), tbl2)
        else
          selLoop2S (fun w => isEligibleFace inId violatesScope w.faceId)
            (min fmi tbl2.length) 0 tbl2

/-- Whether the face at position `j` of the table satisfies `elig`
(positions past the end do not). -/
def eligAtP (elig : WeightedFace → Bool) (faces : List WeightedFace) (j : ℕ) : Bool :=
  match faces[j]? with
  | some w => elig w
  | none => false

/-- Whether the face at position `j` of the table is eligible. -/
def eligAt (inId : ℕ) (violatesScope : ℕ → Bool) (faces : List WeightedFace)
    (j : ℕ) : Bool :=
  eligAtP (fun w => isEligibleFace inId violatesScope w.faceId) faces j

/-- Position of the first eligible face among positions `0, …, limit - 1`. -/
def firstEligIdx (inId : ℕ) (violatesScope : ℕ → Bool) (faces : List WeightedFace)
    (limit : ℕ) : Option ℕ :=
  (List.range limit).find? (eligAt inId violatesScope faces)

/-- Modelled from the spec (claim C2 wording, spec §4.D steps 3–4): after an
ineligible sampled match at position `k`, continue from position `k + 1`
toward the end, returning the first eligible face found; if that scan reaches
the end without success, wrap around and scan positions
`0 .. min(fallback_index, N)` in order, returning the first eligible face. -/
def specC2Fallback (inId : ℕ) (violatesScope : ℕ → Bool)
    (faces : List WeightedFace) (k : ℕ) : Option ℕ :=
  match ((List.range faces.length).filter (fun j => k + 1 ≤ j)).find?
      (eligAt inId violatesScope faces) with
  | some j => some j
  | none =>
    (List.range (min k faces.length + 1)).find? (eligAt inId violatesScope faces)

/-- Modelled from the spec (claim C7 wording, spec §4.A): `clamp(d, 0, MAX)`. -/
def specClamp (d : ℤ) : ℤ := max 0 (min d MAX_DELAY)

/-! ## Helper lemmas -/

theorem weightOf_zero : weightOf 0 = 1 := by
  norm_num [weightOf, MAX_DELAY]

theorem weightOf_max : weightOf MAX_DELAY = 0 := by
  norm_num [weightOf]

theorem weightOf_nonneg {d : ℤ} (h : d ≤ MAX_DELAY) : 0 ≤ weightOf d := by
  have hm : (0 : ℚ) < (MAX_DELAY : ℚ) := by norm_num [MAX_DELAY]
  have hd : (d : ℚ) ≤ (MAX_DELAY : ℚ) := by exact_mod_cast h
  exact div_nonneg (by linarith) (le_of_lt hm)

theorem weightOf_le_one {d : ℤ} (h : 0 ≤ d) : weightOf d ≤ 1 := by
  have hm : (0 : ℚ) < (MAX_DELAY : ℚ) := by norm_num [MAX_DELAY]
  have hd : (0 : ℚ) ≤ (d : ℚ) := by exact_mod_cast h
  rw [weightOf, div_le_one hm]
  linarith

theorem find?_wfsInsert_of_some {s : List WeightedFace} {p : WeightedFace → Bool}
    {u : WeightedFace} (w : WeightedFace) (h : s.find? p = some u) :
    (wfsInsert s w).find? p = some u := by
  unfold wfsInsert
  split
  · exact h
  · simp [List.find?_append, h]

theorem find?_wfsInsert_of_none_self {s : List WeightedFace} {fid : ℕ}
    {w : WeightedFace} (h : s.find? (faceIdIs fid) = none) (hw : w.faceId = fid) :
    (wfsInsert s w).find? (faceIdIs fid) = some w := by
  have hnone : ∀ x ∈ s, ¬(faceIdIs fid x = true) := List.find?_eq_none.mp h
  have hany : s.any (fun x => x.faceId == w.faceId) = false := by
    rw [List.any_eq_false]
    intro x hx
    have hne := hnone x hx
    simp only [faceIdIs, beq_iff_eq] at hne ⊢
    rw [hw]
    exact hne
  unfold wfsInsert
  rw [hany]
  simp [List.find?_append, h, faceIdIs, hw]

theorem find?_wfsInsert_of_none_ne {s : List WeightedFace} {fid : ℕ}
    {w : WeightedFace} (h : s.find? (faceIdIs fid) = none) (hw : w.faceId ≠ fid) :
    (wfsInsert s w).find? (faceIdIs fid) = none := by
  unfold wfsInsert
  split
  · exact h
  · simp [List.find?_append, h, faceIdIs, hw]

theorem mem_map_faceId_wfsInsert {s : List WeightedFace} {w : WeightedFace} {x : ℕ} :
    x ∈ (wfsInsert s w).map (fun u => u.faceId) ↔
      x ∈ s.map (fun u => u.faceId) ∨ x = w.faceId := by
  unfold wfsInsert
  split
  · rename_i hany
    rw [List.any_eq_true] at hany
    obtain ⟨u, hu, heq⟩ := hany
    simp only [beq_iff_eq] at heq
    constructor
    · exact Or.inl
    · rintro (hx | rfl)
      · exact hx
      · exact List.mem_map.mpr ⟨u, hu, heq⟩
  · simp [List.mem_append, eq_comm]

theorem mem_wfsInsert {s : List WeightedFace} {w u : WeightedFace}
    (h : u ∈ wfsInsert s w) : u ∈ s ∨ u = w := by
  unfold wfsInsert at h
  split at h
  · exact Or.inl h
  · rcases List.mem_append.mp h with h1 | h1
    · exact Or.inl h1
    · simp only [List.mem_singleton] at h1
      exact Or.inr h1

theorem updateFaceDelay_map_faceId (s : List WeightedFace) (fid : ℕ) (d : ℤ) :
    (updateFaceDelay s fid d).map (fun u => u.faceId) = s.map (fun u => u.faceId) := by
  induction s with
  | nil => rfl
  | cons w ws ih =>
    rw [updateFaceDelay]
    split
    · simp [modifyWeightedFaceDelay]
    · simpa using ih

theorem updateFaceDelay_of_not_mem {s : List WeightedFace} {fid : ℕ} (d : ℤ)
    (h : ∀ w ∈ s, w.faceId ≠ fid) : updateFaceDelay s fid d = s := by
  induction s with
  | nil => rfl
  | cons w ws ih =>
    rw [updateFaceDelay]
    have hb : (w.faceId == fid) = false := by
      simp [h w (List.mem_cons_self w ws)]
    rw [hb]
    simp only [Bool.false_eq_true, if_false]
    rw [ih (fun u hu => h u (List.mem_cons_of_mem w hu))]

theorem find?_updateFaceDelay_self (s : List WeightedFace) (fid : ℕ) (d : ℤ) :
    (updateFaceDelay s fid d).find? (faceIdIs fid) =
      (s.find? (faceIdIs fid)).map (fun w => modifyWeightedFaceDelay w d) := by
  induction s with
  | nil => rfl
  | cons w ws ih =>
    rw [updateFaceDelay]
    by_cases hw : w.faceId = fid
    · have hb : (w.faceId == fid) = true := by simp [hw]
      rw [hb]
      simp only [if_true]
      have h1 : faceIdIs fid (modifyWeightedFaceDelay w d) = true := by
        simp [faceIdIs, modifyWeightedFaceDelay, hw]
      have h2 : faceIdIs fid w = true := by simp [faceIdIs, hw]
      rw [List.find?_cons_of_pos _ h1, List.find?_cons_of_pos _ h2]
      rfl
    · have hb : (w.faceId == fid) = false := by simp [hw]
      rw [hb]
      simp only [Bool.false_eq_true, if_false]
      have h2 : ¬(faceIdIs fid w = true) := by simp [faceIdIs, hw]
      rw [List.find?_cons_of_neg _ h2, List.find?_cons_of_neg _ h2]
      exact ih

theorem find?_updateFaceDelay_ne (s : List WeightedFace) {fid g : ℕ} (d : ℤ)
    (h : g ≠ fid) :
    (updateFaceDelay s fid d).find? (faceIdIs g) = s.find? (faceIdIs g) := by
  induction s with
  | nil => rfl
  | cons w ws ih =>
    rw [updateFaceDelay]
    by_cases hw : w.faceId = fid
    · have hb : (w.faceId == fid) = true := by simp [hw]
      rw [hb]
      simp only [if_true]
      have hgw : ¬(faceIdIs g w = true) := by
        simp only [faceIdIs, beq_iff_eq]
        intro hc
        exact h (hc ▸ hw)
      have hgm : ¬(faceIdIs g (modifyWeightedFaceDelay w d) = true) := by
        simpa [faceIdIs, modifyWeightedFaceDelay] using hgw
      rw [List.find?_cons_of_neg _ hgm, List.find?_cons_of_neg _ hgw]
    · have hb : (w.faceId == fid) = false := by simp [hw]
      rw [hb]
      simp only [Bool.false_eq_true, if_false]
      by_cases hgw : faceIdIs g w = true
      · rw [List.find?_cons_of_pos _ hgw, List.find?_cons_of_pos _ hgw]
      · rw [List.find?_cons_of_neg _ hgw, List.find?_cons_of_neg _ hgw]
        exact ih

theorem getElem?_updateFaceDelay {s : List WeightedFace} {fid : ℕ} {d : ℤ} :
    ∀ (i : ℕ) (w2 : WeightedFace), (updateFaceDelay s fid d)[i]? = some w2 →
      ∃ w : WeightedFace, s[i]? = some w ∧
        (w2 = w ∨ (w.faceId = fid ∧ w2 = modifyWeightedFaceDelay w d)) := by
  induction s with
  | nil => intro i w2 h; simp [updateFaceDelay] at h
  | cons w ws ih =>
    intro i w2 h
    rw [updateFaceDelay] at h
    by_cases hw : w.faceId = fid
    · have hb : (w.faceId == fid) = true := by simp [hw]
      rw [hb] at h
      simp only [if_true] at h
      match i with
      | 0 =>
        simp only [List.getElem?_cons_zero, Option.some_inj] at h
        exact ⟨w, by simp, Or.inr ⟨hw, h.symm⟩⟩
      | i + 1 =>
        simp only [List.getElem?_cons_succ] at h
        exact ⟨w2, by simpa using h, Or.inl rfl⟩
    · have hb : (w.faceId == fid) = false := by simp [hw]
      rw [hb] at h
      simp only [Bool.false_eq_true, if_false] at h
      match i with
      | 0 =>
        simp only [List.getElem?_cons_zero, Option.some_inj] at h
        exact ⟨w, by simp, Or.inl h.symm⟩
      | i + 1 =>
        simp only [List.getElem?_cons_succ] at h
        obtain ⟨u, hu, hor⟩ := ih i w2 h
        exact ⟨u, by simpa using hu, hor⟩

theorem usnPick_faceId (s : List WeightedFace) (fid : ℕ) :
    (usnPick s fid).faceId = fid := by
  unfold usnPick
  split
  · rfl
  · rename_i w hw
    simpa [faceIdIs] using List.find?_some hw

theorem foldl_usnStep_mem_map (s : List WeightedFace) :
    ∀ (hops : List ℕ) (acc : List WeightedFace) (x : ℕ),
      x ∈ ((hops.foldl (usnStep s) acc).map (fun u => u.faceId)) ↔
        x ∈ acc.map (fun u => u.faceId) ∨ x ∈ hops := by
  intro hops
  induction hops with
  | nil => intro acc x; simp
  | cons hd t ih =>
    intro acc x
    rw [List.foldl_cons, ih]
    rw [usnStep, mem_map_faceId_wfsInsert, usnPick_faceId]
    simp only [List.mem_cons]
    tauto

theorem foldl_usnStep_find?_of_some (s : List WeightedFace) :
    ∀ (hops : List ℕ) (acc : List WeightedFace) {fid : ℕ} {u : WeightedFace},
      acc.find? (faceIdIs fid) = some u →
      (hops.foldl (usnStep s) acc).find? (faceIdIs fid) = some u := by
  intro hops
  induction hops with
  | nil => intro acc fid u h; simpa using h
  | cons hd t ih =>
    intro acc fid u h
    rw [List.foldl_cons]
    exact ih _ (find?_wfsInsert_of_some _ h)

theorem foldl_usnStep_find?_of_none (s : List WeightedFace) :
    ∀ (hops : List ℕ) (acc : List WeightedFace) {fid : ℕ},
      acc.find? (faceIdIs fid) = none → fid ∈ hops →
      (hops.foldl (usnStep s) acc).find? (faceIdIs fid) = some (usnPick s fid) := by
  intro hops
  induction hops with
  | nil => intro acc fid h hmem; cases hmem
  | cons hd t ih =>
    intro acc fid h hmem
    rw [List.foldl_cons]
    by_cases he : hd = fid
    · subst he
      have h2 : (usnStep s acc hd).find? (faceIdIs hd) = some (usnPick s hd) :=
        find?_wfsInsert_of_none_self h (usnPick_faceId s hd)
      exact foldl_usnStep_find?_of_some s t _ h2
    · have hne : (usnPick s hd).faceId ≠ fid := by rw [usnPick_faceId]; exact he
      have h2 : (usnStep s acc hd).find? (faceIdIs fid) = none :=
        find?_wfsInsert_of_none_ne h hne
      have hmem2 : fid ∈ t := by
        rcases List.mem_cons.mp hmem with h3 | h3
        · exact absurd h3.symm he
        · exact h3
      exact ih _ h2 hmem2

theorem mem_foldl_usnStep (s : List WeightedFace) :
    ∀ (hops : List ℕ) (acc : List WeightedFace) {u : WeightedFace},
      u ∈ hops.foldl (usnStep s) acc →
      u ∈ acc ∨ ∃ fid ∈ hops, u = usnPick s fid := by
  intro hops
  induction hops with
  | nil => intro acc u h; exact Or.inl h
  | cons hd t ih =>
    intro acc u h
    rw [List.foldl_cons] at h
    rcases ih _ h with h1 | ⟨fid, hfid, rfl⟩
    · rcases mem_wfsInsert h1 with h2 | rfl
      · exact Or.inl h2
      · exact Or.inr ⟨hd, List.mem_cons_self hd t, rfl⟩
    · exact Or.inr ⟨fid, List.mem_cons_of_mem hd hfid, rfl⟩

theorem foldl_upd_find?_not_mem (D : ℤ) :
    ∀ (outs : List ℕ) (t : List WeightedFace) {fid : ℕ},
      fid ∉ outs →
      (outs.foldl (fun acc g => updateFaceDelay acc g D) t).find? (faceIdIs fid) =
        t.find? (faceIdIs fid) := by
  intro outs
  induction outs with
  | nil => intro t fid h; rfl
  | cons o rest ih =>
    intro t fid h
    rw [List.foldl_cons]
    have ho : fid ≠ o := fun hc => h (hc ▸ List.mem_cons_self o rest)
    rw [ih _ (fun hc => h (List.mem_cons_of_mem o hc))]
    exact find?_updateFaceDelay_ne t D ho

theorem foldl_upd_find?_mem (D : ℤ) :
    ∀ (outs : List ℕ) (t : List WeightedFace) {fid : ℕ},
      fid ∈ outs →
      (outs.foldl (fun acc g => updateFaceDelay acc g D) t).find? (faceIdIs fid) =
        (t.find? (faceIdIs fid)).map (fun w => modifyWeightedFaceDelay w D) := by
  intro outs
  induction outs with
  | nil => intro t fid h; cases h
  | cons o rest ih =>
    intro t fid h
    rw [List.foldl_cons]
    by_cases hmem : fid ∈ rest
    · rw [ih _ hmem]
      by_cases ho : o = fid
      · subst ho
        rw [find?_updateFaceDelay_self]
        cases t.find? (faceIdIs o) <;> rfl
      · rw [find?_updateFaceDelay_ne t D (fun hc => ho hc.symm)]
    · have ho : o = fid := by
        rcases List.mem_cons.mp h with h1 | h1
        · exact h1.symm
        · exact absurd h1 hmem
      subst ho
      rw [foldl_upd_find?_not_mem D rest _ hmem]
      exact find?_updateFaceDelay_self t o D

theorem foldl_upd_map_faceId (D : ℤ) :
    ∀ (outs : List ℕ) (t : List WeightedFace),
      (outs.foldl (fun acc g => updateFaceDelay acc g D) t).map (fun u => u.faceId) =
        t.map (fun u => u.faceId) := by
  intro outs
  induction outs with
  | nil => intro t; rfl
  | cons o rest ih =>
    intro t
    rw [List.foldl_cons, ih, updateFaceDelay_map_faceId]

theorem demoteUpdates_find?_mem {outs : List ℕ} {t : List WeightedFace} {fid : ℕ}
    (h : fid ∈ outs) :
    (demoteUpdates outs t).find? (faceIdIs fid) =
      (t.find? (faceIdIs fid)).map (fun w => modifyWeightedFaceDelay w MAX_DELAY) :=
  foldl_upd_find?_mem MAX_DELAY outs t h

theorem demoteUpdates_map_faceId (outs : List ℕ) (t : List WeightedFace) :
    (demoteUpdates outs t).map (fun u => u.faceId) = t.map (fun u => u.faceId) :=
  foldl_upd_map_faceId MAX_DELAY outs t

theorem WFInv_mk {fid : ℕ} {d : ℤ} (h0 : 0 ≤ d) (h1 : d ≤ MAX_DELAY) :
    WFInv (mkWeightedFace fid d) := ⟨rfl, h0, h1⟩

theorem WFInv_modify {w : WeightedFace} {d : ℤ} (h0 : 0 ≤ d) (h1 : d ≤ MAX_DELAY) :
    WFInv (modifyWeightedFaceDelay w d) := ⟨rfl, h0, h1⟩

theorem mem_updateFaceDelay {s : List WeightedFace} {fid : ℕ} {d : ℤ} {u : WeightedFace}
    (h : u ∈ updateFaceDelay s fid d) :
    u ∈ s ∨ ∃ w ∈ s, u = modifyWeightedFaceDelay w d := by
  induction s with
  | nil => simp [updateFaceDelay] at h
  | cons w ws ih =>
    rw [updateFaceDelay] at h
    split at h
    · rcases List.mem_cons.mp h with rfl | h1
      · exact Or.inr ⟨w, List.mem_cons_self w ws, rfl⟩
      · exact Or.inl (List.mem_cons_of_mem w h1)
    · rcases List.mem_cons.mp h with rfl | h1
      · exact Or.inl (List.mem_cons_self _ ws)
      · rcases ih h1 with h2 | ⟨v, hv, rfl⟩
        · exact Or.inl (List.mem_cons_of_mem w h2)
        · exact Or.inr ⟨v, List.mem_cons_of_mem w hv, rfl⟩

theorem WFInv_updateFaceDelay {s : List WeightedFace} {fid : ℕ} {d : ℤ}
    (h0 : 0 ≤ d) (h1 : d ≤ MAX_DELAY) (hs : ∀ w ∈ s, WFInv w) :
    ∀ u ∈ updateFaceDelay s fid d, WFInv u := by
  intro u hu
  rcases mem_updateFaceDelay hu with h2 | ⟨w, hw, rfl⟩
  · exact hs u h2
  · exact WFInv_modify h0 h1

theorem WFInv_foldl_upd :
    ∀ (outs : List ℕ) (t : List WeightedFace), (∀ w ∈ t, WFInv w) →
      ∀ u ∈ outs.foldl (fun acc g => updateFaceDelay acc g MAX_DELAY) t, WFInv u := by
  intro outs
  induction outs with
  | nil => intro t ht u hu; exact ht u hu
  | cons o rest ih =>
    intro t ht u hu
    rw [List.foldl_cons] at hu
    exact ih _ (WFInv_updateFaceDelay (by norm_num [MAX_DELAY]) le_rfl ht) u hu

theorem selLoop2_some_elig (faces : List WeightedFace) (elig : WeightedFace → Bool) :
    ∀ (fuel i k : ℕ), selLoop2 faces elig fuel i = .ok (some k) →
      ∃ w : WeightedFace, faces[k]? = some w ∧ elig w = true := by
  intro fuel
  induction fuel with
  | zero => intro i k h; simp [selLoop2] at h
  | succ fuel ih =>
    intro i k h
    rw [selLoop2] at h
    split at h
    · simp at h
    · rename_i w hw
      split at h
      · rename_i helig
        simp only [Except.ok.injEq, Option.some_inj] at h
        subst h
        exact ⟨w, hw, helig⟩
      · exact ih _ _ h

theorem selLoop1_inl_elig (faces : List WeightedFace) (ids : List ℕ)
    (elig : WeightedFace → Bool) (s : ℕ) :
    ∀ (fuel i fmi k : ℕ), selLoop1 faces ids elig s fuel i fmi = .ok (.inl k) →
      ∃ w : WeightedFace, faces[k]? = some w ∧ elig w = true := by
  intro fuel
  induction fuel with
  | zero => intro i fmi k h; simp [selLoop1] at h
  | succ fuel ih =>
    intro i fmi k h
    rw [selLoop1] at h
    split at h
    · simp at h
    · split at h
      · split at h
        · simp at h
        · split at h
          · split at h
            · simp at h
            · rename_i w hw
              split at h
              · rename_i helig
                simp only [Except.ok.injEq, Sum.inl.injEq] at h
                subst h
                exact ⟨w, hw, helig⟩
              · split at h
                · simp at h
                · exact ih _ _ _ h
          · split at h
            · simp at h
            · exact ih _ _ _ h
      · split at h
        · simp at h
        · exact ih _ _ _ h

theorem selLoop1_no_match (faces : List WeightedFace) (ids : List ℕ)
    (elig : WeightedFace → Bool) (s : ℕ) (hlen : faces.length < ids.length) :
    ∀ (fuel i fmi : ℕ), i + fuel ≤ faces.length →
      (∀ j a b, i ≤ j → j < i + fuel → ids[j]? = some a → ids[j + 1]? = some b →
        ¬(a ≤ s ∧ s < b)) →
      selLoop1 faces ids elig s fuel i fmi = .ok (.inr fmi) := by
  intro fuel
  induction fuel with
  | zero => intro i fmi hb hnm; rfl
  | succ fuel ih =>
    intro i fmi hb hnm
    have hi : i < faces.length := by omega
    have hi1 : i < ids.length := by omega
    have hi2 : i + 1 < ids.length := by omega
    rw [selLoop1]
    split
    · rename_i hnone
      rw [List.getElem?_eq_getElem hi1] at hnone
      cases hnone
    · rename_i a hsome
      split
      · rename_i ha
        split
        · rename_i hnone
          rw [List.getElem?_eq_getElem hi2] at hnone
          cases hnone
        · rename_i b hsome2
          split
          · rename_i hlt
            exact absurd ⟨ha, hlt⟩ (hnm i a b le_rfl (by omega) hsome hsome2)
          · split
            · rename_i heq
              exact absurd heq (by omega)
            · exact ih (i + 1) fmi (by omega)
                (fun j a2 b2 hj1 hj2 h1 h2 => hnm j a2 b2 (by omega) (by omega) h1 h2)
      · split
        · rename_i heq
          exact absurd heq (by omega)
        · exact ih (i + 1) fmi (by omega)
            (fun j a2 b2 hj1 hj2 h1 h2 => hnm j a2 b2 (by omega) (by omega) h1 h2)

theorem selLoop1_match_ineligible (faces : List WeightedFace) (ids : List ℕ)
    (elig : WeightedFace → Bool) (s : ℕ) (k : ℕ) (wk : WeightedFace)
    (hlen : faces.length < ids.length)
    (hwk : faces[k]? = some wk) (hinelig : elig wk = false)
    (hak : ∀ a b, ids[k]? = some a → ids[k + 1]? = some b → a ≤ s ∧ s < b) :
    ∀ (fuel i fmi : ℕ), i + fuel ≤ faces.length →
      (∀ j a b, i ≤ j → j < i + fuel → ids[j]? = some a → ids[j + 1]? = some b →
        a ≤ s ∧ s < b → j = k) →
      i ≤ k → k < i + fuel →
      selLoop1 faces ids elig s fuel i fmi =
        .ok (.inr (if k < fmi then k else fmi)) := by
  have hkn : k < faces.length := by
    by_contra hc
    push_neg at hc
    rw [List.getElem?_eq_none hc] at hwk
    cases hwk
  intro fuel
  induction fuel with
  | zero =>
    intro i fmi hb huniq hik hk
    exfalso
    omega
  | succ fuel ih =>
    intro i fmi hb huniq hik hk
    rcases Nat.eq_or_lt_of_le hik with heqik | hlt
    · subst heqik
      have hk1 : i < ids.length := by omega
      have hk2 : i + 1 < ids.length := by omega
      obtain ⟨ha, hb2⟩ := hak ids[i] ids[i + 1]
        (List.getElem?_eq_getElem hk1) (List.getElem?_eq_getElem hk2)
      rw [selLoop1]
      rw [List.getElem?_eq_getElem hk1]
      simp only
      rw [if_pos ha]
      rw [List.getElem?_eq_getElem hk2]
      simp only
      rw [if_pos hb2]
      rw [hwk]
      simp only
      rw [hinelig]
      simp only [Bool.false_eq_true, if_false]
      rw [if_neg (by omega : ¬ i = faces.length)]
      exact selLoop1_no_match faces ids elig s hlen fuel (i + 1)
        (if i < fmi then i else fmi) (by omega)
        (fun j a2 b2 hj1 hj2 h1 h2 hab =>
          absurd (huniq j a2 b2 (by omega) (by omega) h1 h2 hab) (by omega))
    · have hi : i < faces.length := by omega
      have hi1 : i < ids.length := by omega
      have hi2 : i + 1 < ids.length := by omega
      rw [selLoop1]
      rw [List.getElem?_eq_getElem hi1]
      simp only
      by_cases ha : ids[i] ≤ s
      · rw [if_pos ha]
        rw [List.getElem?_eq_getElem hi2]
        simp only
        rw [if_neg (fun hb3 =>
          absurd (huniq i ids[i] ids[i + 1] le_rfl (by omega)
            (List.getElem?_eq_getElem hi1) (List.getElem?_eq_getElem hi2)
            ⟨ha, hb3⟩) (by omega))]
        rw [if_neg (by omega : ¬ i = faces.length)]
        exact ih (i + 1) fmi (by omega)
          (fun j a2 b2 hj1 hj2 h1 h2 hab => huniq j a2 b2 (by omega) (by omega) h1 h2 hab)
          (by omega) (by omega)
      · rw [if_neg ha]
        rw [if_neg (by omega : ¬ i = faces.length)]
        exact ih (i + 1) fmi (by omega)
          (fun j a2 b2 hj1 hj2 h1 h2 hab => huniq j a2 b2 (by omega) (by omega) h1 h2 hab)
          (by omega) (by omega)

theorem selLoop2_char (faces : List WeightedFace) (elig : WeightedFace → Bool) :
    ∀ (fuel i : ℕ), i + fuel ≤ faces.length →
      selLoop2 faces elig fuel i =
        .ok ((List.range' i fuel).find? (eligAtP elig faces)) := by
  intro fuel
  induction fuel with
  | zero => intro i hb; rfl
  | succ fuel ih =>
    intro i hb
    have hi : i < faces.length := by omega
    rw [selLoop2]
    rw [List.getElem?_eq_getElem hi]
    simp only
    have hAt : eligAtP elig faces i = elig faces[i] := by
      rw [eligAtP, List.getElem?_eq_getElem hi]
    rw [List.range'_succ]
    by_cases he : elig faces[i] = true
    · rw [if_pos he]
      rw [List.find?_cons_of_pos _ (hAt.trans he)]
    · rw [if_neg he]
      rw [List.find?_cons_of_neg _ (fun hc => he (hAt ▸ hc))]
      exact ih (i + 1) (by omega)

theorem selLoop1_nil_error (elig : WeightedFace → Bool) :
    ∀ (fuel i fmi : ℕ),
      selLoop1 [] [INVALID_FACEID] elig 0 (fuel + 1) i fmi = .error () := by
  intro fuel i fmi
  match i with
  | 0 =>
    rw [selLoop1]
    have h0 : ([INVALID_FACEID] : List ℕ)[0]? = some INVALID_FACEID := rfl
    rw [h0]
    simp only
    rw [if_neg (by norm_num [INVALID_FACEID] : ¬ INVALID_FACEID ≤ 0)]
    rw [if_pos (by simp : (0 : ℕ) = List.length ([] : List WeightedFace))]
  | i + 1 =>
    rw [selLoop1]
    have h0 : ([INVALID_FACEID] : List ℕ)[i + 1]? = none := by
      simp
    rw [h0]

theorem selLoop1S_eq (ids : List ℕ) (elig : WeightedFace → Bool) (s : ℕ) :
    ∀ (fuel i fmi : ℕ) (tbl : List WeightedFace),
      selLoop1S ids elig s fuel i fmi tbl =
        (selLoop1 tbl ids elig s fuel i fmi, tbl) := by
  intro fuel
  induction fuel with
  | zero => intro i fmi tbl; rfl
  | succ fuel ih =>
    intro i fmi tbl
    rw [selLoop1S, selLoop1]
    cases ids[i]? with
    | none => rfl
    | some a =>
      dsimp only
      by_cases ha : a ≤ s
      · rw [if_pos ha, if_pos ha]
        cases ids[i + 1]? with
        | none => rfl
        | some b =>
          dsimp only
          by_cases hb : s < b
          · rw [if_pos hb, if_pos hb]
            cases tbl[i]? with
            | none => rfl
            | some w =>
              dsimp only
              by_cases he : elig w = true
              · rw [if_pos he, if_pos he]
              · rw [if_neg he, if_neg he]
                by_cases hl : i = tbl.length
                · rw [if_pos hl, if_pos hl]
                · rw [if_neg hl, if_neg hl, ih]
          · rw [if_neg hb, if_neg hb]
            by_cases hl : i = tbl.length
            · rw [if_pos hl, if_pos hl]
            · rw [if_neg hl, if_neg hl, ih]
      · rw [if_neg ha, if_neg ha]
        by_cases hl : i = tbl.length
        · rw [if_pos hl, if_pos hl]
        · rw [if_neg hl, if_neg hl, ih]

theorem selLoop2S_eq (elig : WeightedFace → Bool) :
    ∀ (fuel i : ℕ) (tbl : List WeightedFace),
      selLoop2S elig fuel i tbl = (selLoop2 tbl elig fuel i, tbl) := by
  intro fuel
  induction fuel with
  | zero => intro i tbl; rfl
  | succ fuel ih =>
    intro i tbl
    rw [selLoop2S, selLoop2]
    cases tbl[i]? with
    | none => rfl
    | some w =>
      dsimp only
      by_cases he : elig w = true
      · rw [if_pos he, if_pos he]
      · rw [if_neg he, if_neg he, ih]

theorem selectOutgoingFaceS_eq (inId : ℕ) (viol : ℕ → Bool)
    (tbl : List WeightedFace) (s : ℕ) :
    selectOutgoingFaceS inId viol tbl s = (selectOutgoingFace inId viol tbl s, tbl) := by
  rw [selectOutgoingFaceS, selectOutgoingFace, selLoop1S_eq]
  cases selLoop1 tbl (tbl.map (fun w => w.faceId) ++ [INVALID_FACEID])
      (fun w => isEligibleFace inId viol w.faceId) s (usub1 tbl.length) 0
      INVALID_FACEID with
  | error e => rfl
  | ok v =>
    cases v with
    | inl k => rfl
    | inr fmi =>
      simp only
      by_cases hc : usub1 tbl.length = tbl.length
      · rw [if_pos hc, if_pos hc, selLoop2S_eq]
      · rw [if_neg hc, if_neg hc]
        cases tbl[usub1 tbl.length]? with
        | none => rfl
        | some w =>
          dsimp only
          by_cases he : isEligibleFace inId viol w.faceId = true
          · rw [if_pos he, if_pos he]
          · rw [if_neg he, if_neg he, selLoop2S_eq]

/-! ## Claim theorems -/

/-- C1: for every weighted-face table, ingress face, and PIT scope oracle,
whenever `selectOutgoingFace` returns a face (on any of its return paths:
sampled match, post-loop check, or wrap-around scan), that face's id differs
from the ingress face's id and the PIT scope check does not report a
violation for it. -/
theorem claim1_selector_safety (inId : ℕ) (violatesScope : ℕ → Bool)
    (faces : List WeightedFace) (selection k : ℕ)
    (h : selectOutgoingFace inId violatesScope faces selection = .ok (some k)) :
    ∃ w : WeightedFace, faces[k]? = some w ∧ w.faceId ≠ inId ∧
      violatesScope w.faceId = false := by
  have main : ∃ w : WeightedFace, faces[k]? = some w ∧
      isEligibleFace inId violatesScope w.faceId = true := by
    rw [selectOutgoingFace] at h
    split at h
    · simp at h
    · rename_i k2 hsel
      simp only [Except.ok.injEq, Option.some_inj] at h
      subst h
      exact selLoop1_inl_elig faces _ _ selection _ 0 INVALID_FACEID k2 hsel
    · rename_i fmi hsel
      split at h
      · exact selLoop2_some_elig faces _ _ 0 k h
      · split at h
        · simp at h
        · rename_i w hw
          split at h
          · rename_i helig
            simp only [Except.ok.injEq, Option.some_inj] at h
            subst h
            exact ⟨w, hw, helig⟩
          · exact selLoop2_some_elig faces _ _ 0 k h
  obtain ⟨w, hw, helig⟩ := main
  rw [isEligibleFace, Bool.and_eq_true, bne_iff_ne, Bool.not_eq_true'] at helig
  exact ⟨w, hw, Ne.symm helig.1, helig.2⟩

/-- C1 witness: a concrete run in which the selector returns the sole face of
the table, which is neither the ingress face nor scope-violating. -/
theorem claim1_selector_safety_witness :
    ∃ w : WeightedFace, ([mkWeightedFace 5 0] : List WeightedFace)[0]? = some w ∧
      w.faceId ≠ 3 ∧ (fun _ => false : ℕ → Bool) w.faceId = false :=
  claim1_selector_safety 3 (fun _ => false) [mkWeightedFace 5 0] 5 0 rfl

/-- C3 (code bug): on the empty table, `selectOutgoingFace` does NOT return
"no face".  The loop bound `facesById.size() - 1` (line 329) is computed in
`uint64_t`, so for `size() == 0` it wraps around to `2 ^ 64 - 1`; the loop
body is entered, increments `faceEntry` past `end()` and reads `faceIds`
out of bounds — undefined behaviour, modelled as `.error ()` instead of the
clean `.ok none` that the claim requires. -/
theorem claim3_empty_table_ub :
    selectOutgoingFace 1 (fun _ => false) [] 0 = .error () := by
  have h1 : selLoop1 ([] : List WeightedFace) [INVALID_FACEID]
      (fun w => isEligibleFace 1 (fun _ => false) w.faceId) 0
      (usub1 (List.length ([] : List WeightedFace))) 0 INVALID_FACEID = .error () := by
    have hb : usub1 (List.length ([] : List WeightedFace)) = (2 ^ 64 - 2) + 1 := by
      norm_num [usub1]
    rw [hb]
    exact selLoop1_nil_error _ _ _ _
  have h2 : (List.map (fun (w : WeightedFace) => w.faceId) [] ++ [INVALID_FACEID])
      = [INVALID_FACEID] := rfl
  rw [selectOutgoingFace, h2, h1]

/-- C2 counterexample: table with face ids `[2, 5, 9]` (then the sentinel),
ingress face 2, scope oracle violating only face 9, sampled value 3.
The sampled value lands at position 0 (`2 ≤ 3 < 5`) and the face there is
ineligible (it is the ingress face).  The claim's algorithm — "continue
scanning positions k+1 through N−1 toward the end and return the first
eligible face found there" — returns position 1 (face 5, eligible).  The
code, however, only re-checks the final position (face 9, scope-violating)
after the loop, wraps around with `limit = min(0, 3) = 0`, scans nothing,
and returns no face at all. -/
theorem claim2_counterexample :
    specC2Fallback 2 (fun fid => fid == 9)
        [mkWeightedFace 2 0, mkWeightedFace 5 0, mkWeightedFace 9 0] 0 = some 1 ∧
    selectOutgoingFace 2 (fun fid => fid == 9)
        [mkWeightedFace 2 0, mkWeightedFace 5 0, mkWeightedFace 9 0] 3 = .ok none := by
  constructor
  · rfl
  · rfl

/-- C2 amended: when the sampled value lands at position `k` (the unique
interval match, `id_k ≤ s < id_{k+1}`, with `k < N - 1` a position tested by
the loop) and the face at position `k` is ineligible, the selector records
`k` as the fallback index but does NOT scan positions `k+1 .. N-2`: it
re-checks only the final position `N-1` after the loop and returns that face
if it is eligible; otherwise it wraps around and returns the first eligible
face among positions `0 .. k-1` (positions strictly below the fallback
index), and returns no face if there is none. -/
theorem claim2_fallback_amended (inId : ℕ) (violatesScope : ℕ → Bool)
    (faces : List WeightedFace) (s k : ℕ) (wk wk1 : WeightedFace)
    (hpair : (faces.map (fun w => w.faceId) ++ [INVALID_FACEID]).Pairwise (· < ·))
    (hsize : faces.length ≤ INVALID_FACEID)
    (hk : k + 1 < faces.length)
    (hwk : faces[k]? = some wk) (hwk1 : faces[k + 1]? = some wk1)
    (h1 : wk.faceId ≤ s) (h2 : s < wk1.faceId)
    (hinelig : isEligibleFace inId violatesScope wk.faceId = false) :
    ∃ wl : WeightedFace, faces[faces.length - 1]? = some wl ∧
      selectOutgoingFace inId violatesScope faces s =
        .ok (if isEligibleFace inId violatesScope wl.faceId then
              some (faces.length - 1)
            else firstEligIdx inId violatesScope faces k) := by
  have hn2 : 2 ≤ faces.length := by omega
  have husub : usub1 faces.length = faces.length - 1 := by
    rw [usub1, if_neg (by omega : ¬ faces.length = 0)]
  have hkI : k < INVALID_FACEID := lt_of_lt_of_le (by omega) hsize
  rw [selectOutgoingFace]
  set ids := faces.map (fun w => w.faceId) ++ [INVALID_FACEID] with hids
  have hidslen : ids.length = faces.length + 1 := by
    rw [hids]; simp
  have hlenlt : faces.length < ids.length := by omega
  have idget : ∀ (j : ℕ) (w : WeightedFace), faces[j]? = some w →
      ids[j]? = some w.faceId := by
    intro j w hw
    have hj : j < faces.length := by
      by_contra hc
      push_neg at hc
      rw [List.getElem?_eq_none hc] at hw
      cases hw
    rw [hids, List.getElem?_append_left (by simpa using hj), List.getElem?_map, hw]
    rfl
  have hgetid : ∀ (j : ℕ) (hj : j < ids.length) (a : ℕ), ids[j]? = some a →
      ids[j] = a := by
    intro j hj a hja
    exact Option.some_inj.mp ((List.getElem?_eq_getElem hj).symm.trans hja)
  have hmono_le : ∀ (p q : ℕ) (hp : p < ids.length) (hq : q < ids.length), p ≤ q →
      ids[p] ≤ ids[q] := by
    intro p q hp hq hpq
    rcases Nat.eq_or_lt_of_le hpq with heq | hlt2
    · subst heq
      exact le_rfl
    · have hg := List.pairwise_iff_get.mp hpair ⟨p, hp⟩ ⟨q, hq⟩ hlt2
      simpa [List.get_eq_getElem] using le_of_lt hg
  have hak : ∀ (a b : ℕ), ids[k]? = some a → ids[k + 1]? = some b →
      a ≤ s ∧ s < b := by
    intro a b hja hjb
    obtain rfl : a = wk.faceId :=
      (Option.some_inj.mp ((idget k wk hwk).symm.trans hja)).symm
    obtain rfl : b = wk1.faceId :=
      (Option.some_inj.mp ((idget (k + 1) wk1 hwk1).symm.trans hjb)).symm
    exact ⟨h1, h2⟩
  have huniq : ∀ (j a b : ℕ), 0 ≤ j → j < 0 + (faces.length - 1) →
      ids[j]? = some a → ids[j + 1]? = some b → a ≤ s ∧ s < b → j = k := by
    intro j a b hj0 hjlt hja hjb hab
    by_contra hne
    have hjlen : j < ids.length := by omega
    have hj1len : j + 1 < ids.length := by omega
    have hklen : k < ids.length := by omega
    have hk1len : k + 1 < ids.length := by omega
    have ha2 : ids[j] = a := hgetid j hjlen a hja
    have hb2 : ids[j + 1] = b := hgetid (j + 1) hj1len b hjb
    have hwkid : ids[k] = wk.faceId :=
      hgetid k hklen wk.faceId (idget k wk hwk)
    have hwk1id : ids[k + 1] = wk1.faceId :=
      hgetid (k + 1) hk1len wk1.faceId (idget (k + 1) wk1 hwk1)
    rcases Nat.lt_or_ge j k with hjk | hjk
    · have hble : ids[j + 1] ≤ ids[k] := hmono_le (j + 1) k hj1len hklen (by omega)
      omega
    · have hjk2 : k < j := by omega
      have hble : ids[k + 1] ≤ ids[j] := hmono_le (k + 1) j hk1len hjlen (by omega)
      omega
  have hloop1 := selLoop1_match_ineligible faces ids
      (fun w => isEligibleFace inId violatesScope w.faceId) s k wk hlenlt hwk hinelig hak
      (faces.length - 1) 0 INVALID_FACEID (by omega) huniq (by omega) (by omega)
  rw [if_pos hkI] at hloop1
  obtain ⟨wl, hwl⟩ : ∃ wl : WeightedFace, faces[faces.length - 1]? = some wl := by
    rw [List.getElem?_eq_getElem (by omega : faces.length - 1 < faces.length)]
    exact ⟨_, rfl⟩
  refine ⟨wl, hwl, ?_⟩
  rw [husub, hloop1]
  dsimp only
  rw [if_neg (by omega : ¬ faces.length - 1 = faces.length)]
  rw [hwl]
  dsimp only
  by_cases helig : isEligibleFace inId violatesScope wl.faceId = true
  · rw [if_pos helig, if_pos helig]
  · rw [if_neg helig, if_neg helig]
    have hmin : min k faces.length = k := min_eq_left (by omega)
    rw [hmin]
    have hchar := selLoop2_char faces
      (fun w => isEligibleFace inId violatesScope w.faceId) k 0 (by omega)
    rw [hchar, firstEligIdx, List.range_eq_range']
    rfl

/-- C2 amended witness: the concrete scenario of the counterexample,
instantiating the amended theorem; table ids `[2, 5, 9]`, ingress 2, face 9
scope-violating, sample 3 landing at position 0. -/
theorem claim2_fallback_amended_witness :
    ∃ wl : WeightedFace,
      ([mkWeightedFace 2 0, mkWeightedFace 5 0, mkWeightedFace 9 0] :
        List WeightedFace)[2]? = some wl ∧
      selectOutgoingFace 2 (fun fid => fid == 9)
          [mkWeightedFace 2 0, mkWeightedFace 5 0, mkWeightedFace 9 0] 3 =
        .ok (if isEligibleFace 2 (fun fid => fid == 9) wl.faceId then some 2
             else firstEligIdx 2 (fun fid => fid == 9)
               [mkWeightedFace 2 0, mkWeightedFace 5 0, mkWeightedFace 9 0] 0) :=
  claim2_fallback_amended 2 (fun fid => fid == 9)
    [mkWeightedFace 2 0, mkWeightedFace 5 0, mkWeightedFace 9 0] 3 0
    (mkWeightedFace 2 0) (mkWeightedFace 5 0)
    (by norm_num [INVALID_FACEID, mkWeightedFace])
    (by norm_num [INVALID_FACEID]) (by norm_num) rfl rfl
    (by norm_num [mkWeightedFace]) (by norm_num [mkWeightedFace]) rfl

/-- C4: for every next-hop list `H` and every prior table state, after
`updateStoredNextHops H` the set of face ids in the table equals the set of
face ids occurring in `H`. -/
theorem claim4_reconcile_membership (s : List WeightedFace) (nexthops : List ℕ)
    (fid : ℕ) :
    fid ∈ (updateStoredNextHops s nexthops).map (fun u => u.faceId) ↔
      fid ∈ nexthops := by
  rw [updateStoredNextHops, foldl_usnStep_mem_map]
  simp

/-- C5: reconcile preserves learned state.  If a face with id `fid` is in the
table (its entry, as found by the hashed-index lookup, is `w`) and `fid`
occurs in the new next-hop list, then after `updateStoredNextHops` the entry
for `fid` is still exactly `w` (delay and weight copied verbatim); and if
`fid` was not in the table but occurs in the next-hop list, the new entry is
a fresh `WeightedFace` with delay 0 and weight 1. -/
theorem claim5_reconcile_preserves (s : List WeightedFace) (nexthops : List ℕ)
    (fid : ℕ) :
    (∀ w : WeightedFace, s.find? (faceIdIs fid) = some w → fid ∈ nexthops →
      (updateStoredNextHops s nexthops).find? (faceIdIs fid) = some w) ∧
    (s.find? (faceIdIs fid) = none → fid ∈ nexthops →
      (updateStoredNextHops s nexthops).find? (faceIdIs fid) =
          some (mkWeightedFace fid 0) ∧
        (mkWeightedFace fid 0).lastDelay = 0 ∧ (mkWeightedFace fid 0).weight = 1) := by
  constructor
  · intro w hw hmem
    rw [updateStoredNextHops]
    have hpick : usnPick s fid = w := by rw [usnPick, hw]
    have := foldl_usnStep_find?_of_none s nexthops [] rfl hmem
    rw [hpick] at this
    exact this
  · intro hnone hmem
    refine ⟨?_, rfl, weightOf_zero⟩
    rw [updateStoredNextHops]
    have hpick : usnPick s fid = mkWeightedFace fid 0 := by rw [usnPick, hnone]
    have := foldl_usnStep_find?_of_none s nexthops [] rfl hmem
    rw [hpick] at this
    exact this

/-- C5 witness: table `[⟨1, delay 5⟩]`, next hops `[1, 2]`: face 1 keeps its
entry verbatim, face 2 gets a fresh entry with delay 0 and weight 1. -/
theorem claim5_reconcile_preserves_witness :
    (updateStoredNextHops [mkWeightedFace 1 5] [1, 2]).find? (faceIdIs 1) =
        some (mkWeightedFace 1 5) ∧
      (updateStoredNextHops [mkWeightedFace 1 5] [1, 2]).find? (faceIdIs 2) =
        some (mkWeightedFace 2 0) ∧
      (mkWeightedFace 2 0).lastDelay = 0 ∧ (mkWeightedFace 2 0).weight = 1 :=
  ⟨(claim5_reconcile_preserves [mkWeightedFace 1 5] [1, 2] 1).1
      (mkWeightedFace 1 5) rfl (by norm_num),
    (claim5_reconcile_preserves [mkWeightedFace 1 5] [1, 2] 2).2 rfl (by norm_num)⟩

/-- C6 counterexample: the delay-update operation does not clamp, so updating
a face with a negative delay (possible on the Data path, where the delay is a
wall-clock difference `now − creationTime` that can be negative) yields
`lastDelay = -5 < 0` and, in exact arithmetic, `weight = (MAX + 5)/MAX > 1`,
violating both `0 ≤ lastDelay` and `weight ≤ 1`.  (In the C++ the
subtraction `milliseconds::max() - lastDelay` would additionally overflow.) -/
theorem claim6_counterexample :
    updateFaceDelay [mkWeightedFace 1 0] 1 (-5) =
        [{ faceId := 1, lastDelay := -5, weight := weightOf (-5) }] ∧
      ({ faceId := 1, lastDelay := -5, weight := weightOf (-5) } :
        WeightedFace).lastDelay < 0 ∧
      1 < weightOf (-5) := by
  refine ⟨rfl, by norm_num, ?_⟩
  rw [weightOf]
  rw [lt_div_iff₀ (by norm_num [MAX_DELAY] : (0 : ℚ) < (MAX_DELAY : ℚ))]
  norm_num [MAX_DELAY]

/-- C6 amended: the equation `weight = (MAX − lastDelay)/MAX` (in exact
arithmetic) holds for every `WeightedFace` produced by construction or by the
delay update, and, PROVIDED every delay supplied is within `[0, MAX]`, the
bounds `0 ≤ lastDelay ≤ MAX` and `0 ≤ weight ≤ 1` (with the two corner
implications) are preserved by construction, `updateFaceDelay`,
`updateStoredNextHops` and `demoteFace`; but the code performs no clamping,
so a single out-of-range delay breaks the bounds (see the counterexample). -/
theorem claim6_invariant_amended :
    (∀ (fid : ℕ) (d : ℤ), 0 ≤ d → d ≤ MAX_DELAY → WFInv (mkWeightedFace fid d)) ∧
    (∀ w : WeightedFace, WFInv w →
      0 ≤ w.weight ∧ w.weight ≤ 1 ∧
        (w.lastDelay = MAX_DELAY → w.weight = 0) ∧
        (w.lastDelay = 0 → w.weight = 1)) ∧
    (∀ (s : List WeightedFace) (fid : ℕ) (d : ℤ), 0 ≤ d → d ≤ MAX_DELAY →
      (∀ w ∈ s, WFInv w) → ∀ u ∈ updateFaceDelay s fid d, WFInv u) ∧
    (∀ (s : List WeightedFace) (nexthops : List ℕ), (∀ w ∈ s, WFInv w) →
      ∀ u ∈ updateStoredNextHops s nexthops, WFInv u) ∧
    (∀ (outs : List ℕ) (ancestors : List MeasurementEntry),
      (∀ e ∈ ancestors, ∀ t, e.info = some t → ∀ w ∈ t, WFInv w) →
      ∀ e2 ∈ demoteFace outs ancestors, ∀ t2, e2.info = some t2 →
        ∀ u ∈ t2, WFInv u) := by
  refine ⟨fun fid d h0 h1 => WFInv_mk h0 h1, ?_, ?_, ?_, ?_⟩
  · intro w hw
    obtain ⟨heq, h0, h1⟩ := hw
    refine ⟨?_, ?_, ?_, ?_⟩
    · rw [heq]; exact weightOf_nonneg h1
    · rw [heq]; exact weightOf_le_one h0
    · intro hmax; rw [heq, hmax]; exact weightOf_max
    · intro hzero; rw [heq, hzero]; exact weightOf_zero
  · exact fun s fid d h0 h1 hs => WFInv_updateFaceDelay h0 h1 hs
  · intro s nexthops hs u hu
    rw [updateStoredNextHops] at hu
    rcases mem_foldl_usnStep s nexthops [] hu with h2 | ⟨fid, hfid, rfl⟩
    · cases h2
    · rw [usnPick]
      split
    -- fresh entry: delay 0
      · exact WFInv_mk le_rfl (by norm_num [MAX_DELAY])
      · rename_i w hw
        exact hs w (List.mem_of_find?_eq_some hw)
  · intro outs ancestors hanc e2 he2 t2 ht2 u hu
    rw [demoteFace] at he2
    obtain ⟨e, he, hmap⟩ := List.mem_map.mp he2
    rcases hinfo : e.info with _ | t
    · rw [hinfo] at hmap
      subst hmap
      exact hanc e he t2 ht2 u hu
    · rw [hinfo] at hmap
      subst hmap
      simp only at ht2
      obtain rfl : demoteUpdates outs t = t2 := Option.some_inj.mp ht2
      exact WFInv_foldl_upd outs t (hanc e he t hinfo) u hu

/-- C6 amended witness: constructing a face with delay 5 satisfies the
invariant, and updating a singleton table with the in-range delay 7 keeps
every entry's invariant. -/
theorem claim6_invariant_amended_witness :
    WFInv (mkWeightedFace 1 5) ∧
      ∀ u ∈ updateFaceDelay [mkWeightedFace 1 5] 1 7, WFInv u :=
  ⟨claim6_invariant_amended.1 1 5 (by norm_num) (by norm_num [MAX_DELAY]),
    claim6_invariant_amended.2.2.1 [mkWeightedFace 1 5] 1 7 (by norm_num)
      (by norm_num [MAX_DELAY])
      (fun w hw => by
        rw [List.mem_singleton] at hw
        subst hw
        exact claim6_invariant_amended.1 1 5 (by norm_num) (by norm_num [MAX_DELAY]))⟩

/-- C7 counterexample: the claim says the delay-setting operation assigns
`lastDelay = clamp(d, 0, MAX_DELAY)`.  The code (`modifyWeightedFaceDelay`,
lines 81–87) assigns `lastDelay = d` directly with no clamping: for
`d = -5`, `clamp` would give `0` but the stored delay is `-5`. -/
theorem claim7_counterexample :
    (modifyWeightedFaceDelay (mkWeightedFace 1 0) (-5)).lastDelay = -5 ∧
      specClamp (-5) = 0 ∧ ((-5 : ℤ) ≠ 0) := by
  refine ⟨rfl, ?_, by norm_num⟩
  rw [specClamp]
  norm_num [MAX_DELAY]

/-- C7 amended: for every input duration `d`, the delay update on a table
entry assigns `lastDelay = d` directly — no clamping; `d > MAX_DELAY` is not
representable in the millisecond type, and negative `d` is stored as-is —
and recomputes the weight from `d`. -/
theorem claim7_set_delay_amended (s : List WeightedFace) (fid : ℕ) (d : ℤ)
    (w : WeightedFace) (hw : s.find? (faceIdIs fid) = some w) :
    (updateFaceDelay s fid d).find? (faceIdIs fid) =
        some (modifyWeightedFaceDelay w d) ∧
      (modifyWeightedFaceDelay w d).lastDelay = d ∧
      (modifyWeightedFaceDelay w d).weight = weightOf d := by
  refine ⟨?_, rfl, rfl⟩
  rw [find?_updateFaceDelay_self, hw]
  rfl

/-- C7 amended witness: updating the face with id 1 to delay −5 stores −5. -/
theorem claim7_set_delay_amended_witness :
    (updateFaceDelay [mkWeightedFace 1 0] 1 (-5)).find? (faceIdIs 1) =
        some (modifyWeightedFaceDelay (mkWeightedFace 1 0) (-5)) ∧
      (modifyWeightedFaceDelay (mkWeightedFace 1 0) (-5)).lastDelay = -5 ∧
      (modifyWeightedFaceDelay (mkWeightedFace 1 0) (-5)).weight = weightOf (-5) :=
  claim7_set_delay_amended [mkWeightedFace 1 0] 1 (-5) (mkWeightedFace 1 0) rfl

/-- C8: `demoteFace` walks the measurement ancestors; every ancestor that
carries a `PrefixMeasurement` gets its lifetime extended by 16 seconds and
the delay update applied with `MAX_DELAY` for every out-record face;
membership of its table is unchanged, and every out-record face present in
the table ends with `lastDelay = MAX_DELAY` and weight 0 (exact arithmetic).
Ancestors without a `PrefixMeasurement` are untouched. -/
theorem claim8_demote (outs : List ℕ) (ancestors : List MeasurementEntry) :
    (demoteFace outs ancestors).length = ancestors.length ∧
    ∀ (i : ℕ) (e : MeasurementEntry), ancestors[i]? = some e →
      (e.info = none → (demoteFace outs ancestors)[i]? = some e) ∧
      (∀ t : List WeightedFace, e.info = some t →
        ∃ t2 : List WeightedFace,
          (demoteFace outs ancestors)[i]? = some
            { info := some t2,
              lifetimeExtensions := e.lifetimeExtensions ++ [16] } ∧
          t2.map (fun u => u.faceId) = t.map (fun u => u.faceId) ∧
          ∀ fid ∈ outs, ∀ w : WeightedFace, t2.find? (faceIdIs fid) = some w →
            w.lastDelay = MAX_DELAY ∧ w.weight = 0) := by
  constructor
  · rw [demoteFace]
    exact List.length_map _ _
  · intro i e he
    have hd : (demoteFace outs ancestors)[i]? = some
        (match e.info with
         | none => e
         | some t =>
           { info := some (demoteUpdates outs t),
             lifetimeExtensions := e.lifetimeExtensions ++ [16] }) := by
      rw [demoteFace, List.getElem?_map, he]
      rfl
    constructor
    · intro hnone
      rw [hd, hnone]
    · intro t hinfo
      refine ⟨demoteUpdates outs t, ?_, demoteUpdates_map_faceId outs t, ?_⟩
      · rw [hd, hinfo]
      · intro fid hfid w hw
        rw [demoteUpdates_find?_mem hfid] at hw
        rcases hfind : t.find? (faceIdIs fid) with _ | u
        · rw [hfind] at hw
          cases hw
        · rw [hfind, Option.map_some'] at hw
          obtain rfl : w = modifyWeightedFaceDelay u MAX_DELAY :=
            (Option.some_inj.mp hw).symm
          exact ⟨rfl, weightOf_max⟩

/-- C8 witness: one ancestor carrying the table `[⟨1, delay 0⟩]`, out-record
set `[1]`: the entry gets one 16-second extension and face 1 ends with
`lastDelay = MAX_DELAY` and weight 0. -/
theorem claim8_demote_witness :
    ∃ t2 : List WeightedFace,
      (demoteFace [1]
          [{ info := some [mkWeightedFace 1 0], lifetimeExtensions := [] }])[0]? =
        some { info := some t2,
               lifetimeExtensions := ([] : List ℕ) ++ [16] } ∧
      t2.map (fun u => u.faceId) =
        ([mkWeightedFace 1 0] : List WeightedFace).map (fun u => u.faceId) ∧
      ∀ fid ∈ ([1] : List ℕ), ∀ w : WeightedFace,
        t2.find? (faceIdIs fid) = some w →
        w.lastDelay = MAX_DELAY ∧ w.weight = 0 :=
  ((claim8_demote [1]
      [{ info := some [mkWeightedFace 1 0], lifetimeExtensions := [] }]).2 0
    { info := some [mkWeightedFace 1 0], lifetimeExtensions := [] } rfl).2
    [mkWeightedFace 1 0] rfl

/-- C9: the delay update mutates at most the entry whose face id is the
target: the list of face ids is unchanged (hence membership is unchanged and
no duplicate id is ever introduced), an absent id makes the call a no-op,
lookups for every other id are unchanged, and positionally every entry is
either exactly the old one or (only for the matching id) the old entry with
the new delay. -/
theorem claim9_update_frame (s : List WeightedFace) (fid : ℕ) (d : ℤ) :
    (updateFaceDelay s fid d).map (fun u => u.faceId) =
        s.map (fun u => u.faceId) ∧
    ((s.map (fun u => u.faceId)).Nodup →
      ((updateFaceDelay s fid d).map (fun u => u.faceId)).Nodup) ∧
    ((∀ w ∈ s, w.faceId ≠ fid) → updateFaceDelay s fid d = s) ∧
    (∀ g : ℕ, g ≠ fid →
      (updateFaceDelay s fid d).find? (faceIdIs g) = s.find? (faceIdIs g)) ∧
    (∀ (i : ℕ) (w2 : WeightedFace), (updateFaceDelay s fid d)[i]? = some w2 →
      ∃ w : WeightedFace, s[i]? = some w ∧
        (w2 = w ∨ (w.faceId = fid ∧ w2 = modifyWeightedFaceDelay w d))) := by
  refine ⟨updateFaceDelay_map_faceId s fid d, ?_,
    fun h => updateFaceDelay_of_not_mem d h,
    fun g hg => find?_updateFaceDelay_ne s d hg,
    fun i w2 h => getElem?_updateFaceDelay i w2 h⟩
  intro hnd
  rw [updateFaceDelay_map_faceId]
  exact hnd

/-- C9 witness: updating id 5 in a table that only holds id 3 is a no-op. -/
theorem claim9_update_frame_witness :
    updateFaceDelay [mkWeightedFace 3 0] 5 7 = [mkWeightedFace 3 0] :=
  (claim9_update_frame [mkWeightedFace 3 0] 5 7).2.2.1
    (fun w hw => by
      rw [List.mem_singleton] at hw
      subst hw
      norm_num [mkWeightedFace])

/-- C10: `selectOutgoingFace` is read-only with respect to the weighted-face
table: in the state-threading embedding the table returned after the call is
identical to the table passed in, whatever the outcome, and the returned
value coincides with the pure embedding.  (The only state the C++ function
mutates is the random generator, which the claim excludes.) -/
theorem claim10_selector_readonly (inId : ℕ) (violatesScope : ℕ → Bool)
    (tbl : List WeightedFace) (selection : ℕ) :
    (selectOutgoingFaceS inId violatesScope tbl selection).2 = tbl ∧
    (selectOutgoingFaceS inId violatesScope tbl selection).1 =
      selectOutgoingFace inId violatesScope tbl selection := by
  rw [selectOutgoingFaceS_eq]
  exact ⟨rfl, rfl⟩
